import Mathlib

/-!
Verification of the binary-splitting Chudnovsky pi program
(`src/raspberry-pi2-openmp.c`).

The C function `bs(a, b, pstack1, qstack1, gstack1, tds)` evaluates the
half-open term range `[a, b)` into a triple of arbitrary-precision
integers `(P, Q, G)`; the global `terms` is the total term count, used
to prune the final `G` multiplication, and `tds` is the OpenMP task
budget that decides whether the recursive split (2-way) and the combine
multiplications (3-way) run in parallel sections or serially.

The embedding below mirrors the source:
  * `term b` is the width-1 closed form (lines 102-126);
  * `bsCombine` is the shared combine block (lines 197-221), keeping
    the serial mutation order (`seqMuls`) and the 3-way parallel
    snapshot (`parMuls`) as distinct state transformers so that their
    agreement (absence of read/write interference) is a theorem, not a
    modelling assumption;
  * `bsAux` is `bs` with an explicit structural fuel (the recursion in
    C terminates because the split point is interior; fuel `b - a` is
    shown sufficient and fuel-irrelevance is proved);
  * `evaluate_terms` is the driver fragment of `main` (lines 280-286).

Machine integers: `a`, `b` are C `unsigned long` used well inside
range, modelled as `Nat`; the GMP `mpz` values are unbounded signed
integers, modelled as `Int`; `tds` is a C `int`, modelled as `Int`
(its divisions use `Int.tdiv`, C's truncating division).  The split
point `a + (b-a)*0.5224` (a double computation truncated to an
integer) is modelled as the exact floor `a + (b - a) * 5224 / 10000`.
-/

namespace Chudnovsky

/-- Constant `A` of the series (`#define A 13591409`). -/
def A : Int := 13591409

/-- Constant `B` of the series (`#define B 545140134`). -/
def B : Int := 545140134

/-- Characteristic constant `C` (`#define C 640320`). -/
def C : Int := 640320

/-- Constant `D` (`#define D 12`). -/
def D : Int := 12

/-- The `(P, Q, G)` triple held in `pstack, qstack, gstack`. -/
structure Triple where
  p : Int
  q : Int
  g : Int
  deriving DecidableEq

/-- Width-1 case of `bs` (source lines 102-126):
`p = b*b*b*((C/24)*(C/24))*(C*24)`, `g = (2b-1)*(6b-1)*(6b-5)`,
`q = (b*B + A)*g`, negated when `b` is odd. -/
def term (b : Nat) : Triple :=
  let bi : Int := (b : Int)
  let p := bi * bi * bi * ((C / 24) * (C / 24)) * (C * 24)
  let g := (2 * bi - 1) * (6 * bi - 1) * (6 * bi - 5)
  let q := (bi * B + A) * g
  ⟨p, if b % 2 = 1 then -q else q, g⟩

/-- Budget for the left child: `int tds0 = tds/2` (C truncating division,
source line 176). -/
def tdsLeft (tds : Int) : Int := Int.tdiv tds 2

/-- Budget for the right child: `int tds1 = tds - tds0` (source line 177). -/
def tdsRight (tds : Int) : Int := tds - tdsLeft tds

/-- Fork decision for the recursive split (source line 179): the 2-way
parallel section runs unless `b - a < 1000 || tds < 2`. -/
def forkPar (w : Nat) (tds : Int) : Bool :=
  !(decide (w < 1000) || decide (tds < 2))

/-- Fork decision for the combine multiplications (source line 197): the
3-way parallel section runs unless `b - a < 1000 || tds < 3`. -/
def mulPar (w : Nat) (tds : Int) : Bool :=
  !(decide (w < 1000) || decide (tds < 3))

/-- The six `mpz` slots live at a combine step:
`pstack1, qstack1, gstack1` (left triple) and `pstack2, qstack2, gstack2`
(right triple). -/
structure BSState where
  p1 : Int
  q1 : Int
  g1 : Int
  p2 : Int
  q2 : Int
  g2 : Int
  deriving DecidableEq

/-- Serial combine multiplications, in the source's statement order
(lines 198-200): `pstack1 *= pstack2; qstack1 *= pstack2;
qstack2 *= gstack1`, each step reading the state left by the previous
one. -/
def seqMuls (s : BSState) : BSState :=
  let sa := { s with p1 := s.p1 * s.p2 }
  let sb := { sa with q1 := sa.q1 * sa.p2 }
  { sb with q2 := sb.q2 * sb.g1 }

/-- The 3-way parallel combine multiplications (lines 202-212): the three
threads each read the pre-combine snapshot and write disjoint slots. -/
def parMuls (s : BSState) : BSState :=
  { s with p1 := s.p1 * s.p2, q1 := s.q1 * s.p2, q2 := s.q2 * s.g1 }

/-- Shared tail of `bs` after both child triples exist (lines 197-221):
the three products (serial or 3-way parallel by `mulPar`), then
`qstack1 += qstack2`, then `gstack1 *= gstack2` only if `b < terms`. -/
def bsCombine (nterms w b : Nat) (tds : Int) (l r : Triple) : Triple :=
  let s0 : BSState := ⟨l.p, l.q, l.g, r.p, r.q, r.g⟩
  let s1 := if mulPar w tds then parMuls s0 else seqMuls s0
  ⟨s1.p1, s1.q1 + s1.q2, if b < nterms then s1.g1 * s1.g2 else s1.g1⟩

/-- The split point `mid = a + (b-a)*0.5224` (source line 178), with the
double product modelled by its exact floor. -/
def bsMid (a b : Nat) : Nat := a + (b - a) * 5224 / 10000

/-- Fuelled embedding of `bs` (source lines 96-224).  The first argument
is the global `terms`; the fuel argument makes the recursion structural
(`bs` below instantiates it with the range width, which is proved
sufficient).  Out-of-contract calls (`b ≤ a`, which the C contract
forbids and whose behaviour is undefined) return a junk triple. -/
def bsAux (nterms : Nat) : Nat → Nat → Nat → Int → Triple
  | 0, _, _, _ => ⟨1, 0, 1⟩
  | fuel + 1, a, b, tds =>
    if b - a = 1 then
      term b
    else if b ≤ a then
      ⟨1, 0, 1⟩
    else if b - a = 2 then
      -- width-2 unrolling (lines 133-166): the two width-1 triples are
      -- written into stack1/stack2 and fall through to the combine block
      bsCombine nterms (b - a) b tds (term (b - 1)) (term b)
    else if forkPar (b - a) tds then
      -- 2-way parallel section (lines 184-193): thread 0 evaluates
      -- [a, mid) into stack1, thread 1 evaluates [mid, b) into stack2
      bsCombine nterms (b - a) b tds
        (bsAux nterms fuel a (bsMid a b) (tdsLeft tds))
        (bsAux nterms fuel (bsMid a b) b (tdsRight tds))
    else
      -- serial path (lines 181-182): left child, then right child
      bsCombine nterms (b - a) b tds
        (bsAux nterms fuel a (bsMid a b) (tdsLeft tds))
        (bsAux nterms fuel (bsMid a b) b (tdsRight tds))

/-- `bs nterms a b tds`: the triple the C `bs(a,b,...,tds)` writes into
`(pstack1, qstack1, gstack1)` when the global `terms = nterms`. -/
def bs (nterms a b : Nat) (tds : Int) : Triple :=
  bsAux nterms (b - a) a b tds

/-- The combination rule of spec section 4.1:
`P = Pl*Pr`, `Q = Ql*Pr + Qr*Gl`, `G = Gl*Gr` (no pruning). -/
def combineRule (l r : Triple) : Triple :=
  ⟨l.p * r.p, l.q * r.p + r.q * l.g, l.g * r.g⟩

/-- The case-3 combine rule as the code implements it (lines 197-221):
the `P`/`Q` parts of `combineRule` together with the `G` pruning
(`gstack1 *= gstack2` only when `b < terms`). -/
def combineCase3 (nterms b : Nat) (l r : Triple) : Triple :=
  ⟨l.p * r.p, l.q * r.p + r.q * l.g, if b < nterms then l.g * r.g else l.g⟩

/-- Modelled from the spec: "direct evaluation" of a range `[a, b)` —
the triple obtained by folding the width-1 closed forms together one
term at a time with the section-4.1 combination rule.  This is the
reference value the spec's invariant compares against. -/
def direct (a : Nat) : Nat → Triple
  | 0 => ⟨1, 0, 1⟩
  | b + 1 => if b ≤ a then term (b + 1) else combineRule (direct a b) (term (b + 1))

/-- Modelled from the claim: the variant of `bs` that always computes
`G` for every range (the pruning conditional `b < terms` removed), used
as the comparison point for the pruning-is-a-no-op claim. -/
def bsFullAux : Nat → Nat → Nat → Triple
  | 0, _, _ => ⟨1, 0, 1⟩
  | fuel + 1, a, b =>
    if b - a = 1 then
      term b
    else if b ≤ a then
      ⟨1, 0, 1⟩
    else if b - a = 2 then
      combineRule (term (b - 1)) (term b)
    else
      combineRule (bsFullAux fuel a (bsMid a b)) (bsFullAux fuel (bsMid a b) b)

/-- Wrapper for `bsFullAux` at its canonical fuel. -/
def bsFull (a b : Nat) : Triple :=
  bsFullAux (b - a) a b

/-- The `evaluate_terms` entry point (spec section 6) with the recursive
evaluator abstracted, mirroring `main` lines 280-286: `terms ≤ 0`
short-circuits to `P = 1, Q = 0`; otherwise the evaluator runs on
`[0, terms)` and `G` is discarded. -/
def evaluate_termsWith (ev : Nat → Nat → Nat → Int → Triple)
    (nterms : Nat) (tds : Int) : Int × Int :=
  if nterms = 0 then (1, 0)
  else ((ev nterms 0 nterms tds).p, (ev nterms 0 nterms tds).q)

/-- `evaluate_terms term_count task_budget`: the `(P, Q)` pair `main`
hands to the finalization pipeline. -/
def evaluate_terms : Nat → Int → Int × Int :=
  evaluate_termsWith bs

/-! ### Basic lemmas about the combine block and the unfolding of `bs` -/

/-- The serial order of the three combine multiplications leaves exactly
the snapshot result: no step reads a slot written by an earlier one. -/
lemma seqMuls_eq_parMuls (s : BSState) : seqMuls s = parMuls s := rfl

/-- The combine block computes the case-3 rule (with `G` pruning),
whichever of the serial or 3-way parallel path `mulPar` selects. -/
lemma bsCombine_eq (nt w b : Nat) (tds : Int) (l r : Triple) :
    bsCombine nt w b tds l r = combineCase3 nt b l r := by
  cases l; cases r
  cases hm : mulPar w tds <;>
    simp [bsCombine, combineCase3, hm, parMuls, seqMuls]

/-- When the range's right edge has not reached the global term count,
the case-3 combine is the pure section-4.1 rule. -/
lemma combineCase3_of_lt (nt b : Nat) (l r : Triple) (h : b < nt) :
    combineCase3 nt b l r = combineRule l r := by
  simp only [combineCase3, combineRule]
  rw [if_pos h]

lemma bsAux_zero (nt a b : Nat) (tds : Int) : bsAux nt 0 a b tds = ⟨1, 0, 1⟩ := rfl

lemma bsAux_width1 (nt f a b : Nat) (tds : Int) (hf : 0 < f) (h : b - a = 1) :
    bsAux nt f a b tds = term b := by
  cases f with
  | zero => omega
  | succ g =>
    simp only [bsAux]
    rw [if_pos h]

lemma bsAux_junk (nt f a b : Nat) (tds : Int) (h : b ≤ a) :
    bsAux nt f a b tds = ⟨1, 0, 1⟩ := by
  cases f with
  | zero => rfl
  | succ g =>
    simp only [bsAux]
    rw [if_neg (by omega), if_pos h]

lemma bsAux_width2 (nt f a b : Nat) (tds : Int) (hf : 0 < f) (h : b - a = 2) :
    bsAux nt f a b tds = bsCombine nt (b - a) b tds (term (b - 1)) (term b) := by
  cases f with
  | zero => omega
  | succ g =>
    simp only [bsAux]
    rw [if_neg (by omega), if_neg (by omega), if_pos h]

lemma bsAux_wide (nt f a b : Nat) (tds : Int) (hf : 0 < f) (h : 2 < b - a) :
    bsAux nt f a b tds =
      bsCombine nt (b - a) b tds
        (bsAux nt (f - 1) a (bsMid a b) (tdsLeft tds))
        (bsAux nt (f - 1) (bsMid a b) b (tdsRight tds)) := by
  cases f with
  | zero => omega
  | succ g =>
    simp only [bsAux, Nat.add_sub_cancel]
    rw [if_neg (by omega), if_neg (by omega), if_neg (by omega), ite_self]

/-- The split point is interior and both children are strictly narrower
whenever the width exceeds 2. -/
lemma bsMid_bounds (a b : Nat) (h : 2 < b - a) :
    a < bsMid a b ∧ bsMid a b < b ∧ bsMid a b - a < b - a ∧ b - bsMid a b < b - a := by
  unfold bsMid
  omega

/-! ### Fuel adequacy and budget irrelevance -/

/-- One extra unit of fuel changes nothing once the fuel covers the width. -/
lemma bsAux_succ (nt : Nat) :
    ∀ f a b tds, b - a ≤ f → bsAux nt (f + 1) a b tds = bsAux nt f a b tds := by
  intro f
  induction f with
  | zero =>
    intro a b tds h
    rw [bsAux_junk nt 1 a b tds (by omega), bsAux_zero]
  | succ g ih =>
    intro a b tds h
    by_cases hw1 : b - a = 1
    · rw [bsAux_width1 nt (g + 1 + 1) a b tds (by omega) hw1,
        bsAux_width1 nt (g + 1) a b tds (by omega) hw1]
    by_cases h0 : b ≤ a
    · rw [bsAux_junk nt (g + 1 + 1) a b tds h0, bsAux_junk nt (g + 1) a b tds h0]
    by_cases hw2 : b - a = 2
    · rw [bsAux_width2 nt (g + 1 + 1) a b tds (by omega) hw2,
        bsAux_width2 nt (g + 1) a b tds (by omega) hw2]
    · have h3 : 2 < b - a := by omega
      obtain ⟨hm1, hm2, hm3, hm4⟩ := bsMid_bounds a b h3
      rw [bsAux_wide nt (g + 1 + 1) a b tds (by omega) h3,
        bsAux_wide nt (g + 1) a b tds (by omega) h3]
      simp only [Nat.add_sub_cancel]
      rw [ih a (bsMid a b) (tdsLeft tds) (by omega),
        ih (bsMid a b) b (tdsRight tds) (by omega)]

/-- Any fuel at least the width gives the canonical value `bs`. -/
lemma bsAux_fuel (nt : Nat) :
    ∀ f a b tds, b - a ≤ f → bsAux nt f a b tds = bs nt a b tds := by
  intro f
  induction f with
  | zero =>
    intro a b tds h
    unfold bs
    rw [show b - a = 0 from by omega]
  | succ g ih =>
    intro a b tds h
    by_cases hw : b - a ≤ g
    · rw [bsAux_succ nt g a b tds hw, ih a b tds hw]
    · unfold bs
      rw [show b - a = g + 1 from by omega]

/-- The task budget never influences the computed triple: it only selects
between the serial and the parallel schedule, which agree. -/
lemma bsAux_tds (nt : Nat) :
    ∀ f a b tds tds', bsAux nt f a b tds = bsAux nt f a b tds' := by
  intro f
  induction f with
  | zero => intro a b tds tds'; rfl
  | succ g ih =>
    intro a b tds tds'
    by_cases hw1 : b - a = 1
    · rw [bsAux_width1 nt (g + 1) a b tds (by omega) hw1,
        bsAux_width1 nt (g + 1) a b tds' (by omega) hw1]
    by_cases h0 : b ≤ a
    · rw [bsAux_junk nt (g + 1) a b tds h0, bsAux_junk nt (g + 1) a b tds' h0]
    by_cases hw2 : b - a = 2
    · rw [bsAux_width2 nt (g + 1) a b tds (by omega) hw2,
        bsAux_width2 nt (g + 1) a b tds' (by omega) hw2,
        bsCombine_eq, bsCombine_eq]
    · have h3 : 2 < b - a := by omega
      rw [bsAux_wide nt (g + 1) a b tds (by omega) h3,
        bsAux_wide nt (g + 1) a b tds' (by omega) h3,
        bsCombine_eq, bsCombine_eq]
      simp only [Nat.add_sub_cancel]
      rw [ih a (bsMid a b) (tdsLeft tds) (tdsLeft tds'),
        ih (bsMid a b) b (tdsRight tds) (tdsRight tds')]

/-- `bs` ignores the task budget. -/
lemma bs_tds (nt a b : Nat) (tds tds' : Int) : bs nt a b tds = bs nt a b tds' :=
  bsAux_tds nt (b - a) a b tds tds'

/-! ### The reference evaluation and the splitting invariant -/

lemma direct_one (a : Nat) : direct a (a + 1) = term (a + 1) := by
  simp only [direct]
  rw [if_pos (le_refl a)]

lemma direct_two (a : Nat) : direct a (a + 2) = combineRule (term (a + 1)) (term (a + 2)) := by
  show direct a (a + 1 + 1) = _
  simp only [direct]
  rw [if_neg (by omega), if_pos (le_refl a)]

/-- The section-4.1 combination rule is associative. -/
lemma combineRule_assoc (x y z : Triple) :
    combineRule (combineRule x y) z = combineRule x (combineRule y z) := by
  cases x; cases y; cases z
  simp only [combineRule, Triple.mk.injEq]
  refine ⟨by ring, by ring, by ring⟩

/-- Splitting a range at any interior point and combining with the
section-4.1 rule reproduces the direct evaluation of the whole range. -/
lemma direct_split (a m : Nat) (h1 : a < m) :
    ∀ b, m < b → combineRule (direct a m) (direct m b) = direct a b := by
  intro b
  induction b with
  | zero => intro h2; omega
  | succ n ih =>
    intro h2
    have hmn : m ≤ n := by omega
    rcases eq_or_lt_of_le hmn with heq | hlt
    · subst heq
      simp only [direct]
      rw [if_pos (le_refl m), if_neg (by omega)]
    · have e1 : direct m (n + 1) = combineRule (direct m n) (term (n + 1)) := by
        simp only [direct]
        rw [if_neg (by omega)]
      have e2 : direct a (n + 1) = combineRule (direct a n) (term (n + 1)) := by
        simp only [direct]
        rw [if_neg (by omega)]
      rw [e1, ← combineRule_assoc, ih hlt, e2]

/-- Below the global term count no pruning happens anywhere in the call
tree, and `bs` computes exactly the direct evaluation. -/
lemma bsAux_eq_direct (nt : Nat) :
    ∀ f a b tds, a < b → b - a ≤ f → b < nt → bsAux nt f a b tds = direct a b := by
  intro f
  induction f with
  | zero => intro a b tds h1 h2 h3; omega
  | succ g ih =>
    intro a b tds h1 h2 h3
    by_cases hw1 : b - a = 1
    · rw [bsAux_width1 nt (g + 1) a b tds (by omega) hw1,
        show b = a + 1 from by omega, direct_one]
    by_cases hw2 : b - a = 2
    · rw [bsAux_width2 nt (g + 1) a b tds (by omega) hw2, bsCombine_eq,
        combineCase3_of_lt nt b _ _ h3,
        show b = a + 2 from by omega, direct_two,
        show a + 2 - 1 = a + 1 from by omega]
    · have h3' : 2 < b - a := by omega
      obtain ⟨hm1, hm2, hm3, hm4⟩ := bsMid_bounds a b h3'
      rw [bsAux_wide nt (g + 1) a b tds (by omega) h3', bsCombine_eq,
        combineCase3_of_lt nt b _ _ h3]
      simp only [Nat.add_sub_cancel]
      rw [ih a (bsMid a b) (tdsLeft tds) hm1 (by omega) (by omega),
        ih (bsMid a b) b (tdsRight tds) hm2 (by omega) h3,
        direct_split a (bsMid a b) hm1 b hm2]

/-- Up to the global term count, the `P` and `Q` components of `bs` agree
with the direct evaluation (only `G` may be pruned). -/
lemma bsAux_pq (nt : Nat) :
    ∀ f a b tds, a < b → b - a ≤ f → b ≤ nt →
      (bsAux nt f a b tds).p = (direct a b).p ∧ (bsAux nt f a b tds).q = (direct a b).q := by
  intro f
  induction f with
  | zero => intro a b tds h1 h2 h3; omega
  | succ g ih =>
    intro a b tds h1 h2 h3
    by_cases hw1 : b - a = 1
    · rw [bsAux_width1 nt (g + 1) a b tds (by omega) hw1,
        show b = a + 1 from by omega, direct_one]
      exact ⟨rfl, rfl⟩
    by_cases hw2 : b - a = 2
    · rw [bsAux_width2 nt (g + 1) a b tds (by omega) hw2, bsCombine_eq,
        show b = a + 2 from by omega, direct_two,
        show a + 2 - 1 = a + 1 from by omega]
      exact ⟨rfl, rfl⟩
    · have h3' : 2 < b - a := by omega
      obtain ⟨hm1, hm2, hm3, hm4⟩ := bsMid_bounds a b h3'
      rw [bsAux_wide nt (g + 1) a b tds (by omega) h3', bsCombine_eq]
      simp only [Nat.add_sub_cancel]
      rw [bsAux_eq_direct nt g a (bsMid a b) (tdsLeft tds) hm1 (by omega) (by omega)]
      obtain ⟨hp, hq⟩ := ih (bsMid a b) b (tdsRight tds) hm2 (by omega) h3
      rw [← direct_split a (bsMid a b) hm1 b hm2]
      constructor
      · simp only [combineCase3, combineRule]
        rw [hp]
      · simp only [combineCase3, combineRule]
        rw [hp, hq]

lemma bs_eq_direct (nt a b : Nat) (tds : Int) (h1 : a < b) (h2 : b < nt) :
    bs nt a b tds = direct a b :=
  bsAux_eq_direct nt (b - a) a b tds h1 (le_refl _) h2

lemma bs_pq (nt a b : Nat) (tds : Int) (h1 : a < b) (h2 : b ≤ nt) :
    (bs nt a b tds).p = (direct a b).p ∧ (bs nt a b tds).q = (direct a b).q :=
  bsAux_pq nt (b - a) a b tds h1 (le_refl _) h2

/-- The never-pruning variant also computes the direct evaluation. -/
lemma bsFullAux_eq_direct :
    ∀ f a b, a < b → b - a ≤ f → bsFullAux f a b = direct a b := by
  intro f
  induction f with
  | zero => intro a b h1 h2; omega
  | succ g ih =>
    intro a b h1 h2
    by_cases hw1 : b - a = 1
    · simp only [bsFullAux]
      rw [if_pos hw1, show b = a + 1 from by omega, direct_one]
    by_cases hw2 : b - a = 2
    · simp only [bsFullAux]
      rw [if_neg (by omega), if_neg (by omega), if_pos hw2,
        show b = a + 2 from by omega, direct_two,
        show a + 2 - 1 = a + 1 from by omega]
    · have h3' : 2 < b - a := by omega
      obtain ⟨hm1, hm2, hm3, hm4⟩ := bsMid_bounds a b h3'
      simp only [bsFullAux]
      rw [if_neg (by omega), if_neg (by omega), if_neg (by omega),
        ih a (bsMid a b) hm1 (by omega),
        ih (bsMid a b) b hm2 (by omega),
        direct_split a (bsMid a b) hm1 b hm2]

lemma bsFull_eq_direct (a b : Nat) (h : a < b) : bsFull a b = direct a b :=
  bsFullAux_eq_direct (b - a) a b h (le_refl _)

/-- Truncating division by 2 expressed through Euclidean division. -/
lemma tdiv_two_eq (t : Int) : Int.tdiv t 2 = if 0 ≤ t then t / 2 else -(-t / 2) := by
  rcases le_or_lt 0 t with h0 | h0
  · rw [if_pos h0, Int.tdiv_eq_ediv h0 (by norm_num)]
  · have h1 : Int.tdiv t 2 = -(Int.tdiv (-t) 2) := by rw [← Int.neg_tdiv, neg_neg]
    rw [if_neg (by omega), h1, Int.tdiv_eq_ediv (by omega) (by norm_num)]

/-! ### The claims -/

/-- Claim C1: for every range `[a, b)` with `a < m < b` (inside the run's
term count, where the `G` components are still live), applying the
section-4.1 combination rule to the triples `bs` produces for `[a, m)`
and `[m, b)` yields exactly the triple of the direct evaluation of
`[a, b)` — for every internal split point `m`, not only the `0.5224`
one, and for any task budgets. -/
theorem claim1_combine_invariant (nt a m b : Nat) (tds tds' : Int)
    (h1 : a < m) (h2 : m < b) (h3 : b < nt) :
    combineRule (bs nt a m tds) (bs nt m b tds') = direct a b := by
  rw [bs_eq_direct nt a m tds h1 (by omega), bs_eq_direct nt m b tds' h2 h3,
    direct_split a m h1 b h2]

/-- Witness for C1 at `nt = 9`, `[0, 5)` split at `m = 2`. -/
theorem claim1_combine_invariant_witness :
    (0 < 2 ∧ 2 < 5 ∧ 5 < 9) ∧ combineRule (bs 9 0 2 3) (bs 9 2 5 0) = direct 0 5 :=
  ⟨by decide, claim1_combine_invariant 9 0 2 5 3 0 (by decide) (by decide) (by decide)⟩

/-- Claim C2: for every `b ≥ 1` the width-1 range `[b-1, b)` yields
exactly `G = (6b-5)(2b-1)(6b-1)`, `P = b³·C³/24` and
`Q = G·(A + B·b)`, negated precisely when `b` is odd. -/
theorem claim2_width1_closed_form (nt : Nat) (tds : Int) (b : Nat) (h : 1 ≤ b) :
    (bs nt (b - 1) b tds).g =
        (6 * (b : Int) - 5) * (2 * (b : Int) - 1) * (6 * (b : Int) - 1) ∧
      (bs nt (b - 1) b tds).p = (b : Int) ^ 3 * (C ^ 3 / 24) ∧
      (bs nt (b - 1) b tds).q =
        (if b % 2 = 1 then -((bs nt (b - 1) b tds).g * (A + B * (b : Int)))
         else (bs nt (b - 1) b tds).g * (A + B * (b : Int))) := by
  have hbs : bs nt (b - 1) b tds = term b := by
    unfold bs
    exact bsAux_width1 nt (b - (b - 1)) (b - 1) b tds (by omega) (by omega)
  rw [hbs]
  show (2 * (b : Int) - 1) * (6 * (b : Int) - 1) * (6 * (b : Int) - 5) = _ ∧
    (b : Int) * (b : Int) * (b : Int) * ((C / 24) * (C / 24)) * (C * 24) = _ ∧
    (if b % 2 = 1 then -(((b : Int) * B + A) * ((2 * (b : Int) - 1) * (6 * (b : Int) - 1) * (6 * (b : Int) - 5)))
     else ((b : Int) * B + A) * ((2 * (b : Int) - 1) * (6 * (b : Int) - 1) * (6 * (b : Int) - 5))) = _
  refine ⟨by ring, ?_, ?_⟩
  · have h24 : ((C / 24) * (C / 24)) * (C * 24) = C ^ 3 / 24 := by decide
    rw [← h24]
    ring
  · have hg : (term b).g = (2 * (b : Int) - 1) * (6 * (b : Int) - 1) * (6 * (b : Int) - 5) :=
      rfl
    by_cases hp : b % 2 = 1
    · rw [if_pos hp, if_pos hp, hg]
      ring
    · rw [if_neg hp, if_neg hp, hg]
      ring

/-- Witness for C2 at `b = 2`. -/
theorem claim2_width1_closed_form_witness :
    1 ≤ 2 ∧
      ((bs 3 (2 - 1) 2 0).g =
          (6 * ((2 : Nat) : Int) - 5) * (2 * ((2 : Nat) : Int) - 1) * (6 * ((2 : Nat) : Int) - 1) ∧
        (bs 3 (2 - 1) 2 0).p = ((2 : Nat) : Int) ^ 3 * (C ^ 3 / 24) ∧
        (bs 3 (2 - 1) 2 0).q =
          (if (2 : Nat) % 2 = 1 then -((bs 3 (2 - 1) 2 0).g * (A + B * ((2 : Nat) : Int)))
           else (bs 3 (2 - 1) 2 0).g * (A + B * ((2 : Nat) : Int)))) :=
  ⟨by decide, claim2_width1_closed_form 3 0 2 (by decide)⟩

/-- Claim C3: for a fixed term count the `(P, Q)` pair of the full
evaluation is identical under task budget 0 (fully serial) and any
budget `N ≥ 2` (parallel paths enabled). -/
theorem claim3_budget_agreement (n : Nat) (N : Int) (h1 : 1 ≤ n) (h2 : 2 ≤ N) :
    evaluate_terms n 0 = evaluate_terms n N := by
  simp only [evaluate_terms, evaluate_termsWith]
  rw [bs_tds n 0 n 0 N]

/-- Witness for C3 at `n = 3`, `N = 2`. -/
theorem claim3_budget_agreement_witness :
    (1 ≤ 3 ∧ (2 : Int) ≤ 2) ∧ evaluate_terms 3 0 = evaluate_terms 3 2 :=
  ⟨by decide, claim3_budget_agreement 3 2 (by decide) (by decide)⟩

/-- Claim C5: pruning the parent `G` multiplication when the right edge
reaches the global term count never changes the root `P` and `Q`:
`bs` on `[0, n)` agrees there with the variant that always computes `G`. -/
theorem claim5_pruning_noop (n : Nat) (tds : Int) (h : 1 ≤ n) :
    ((bs n 0 n tds).p, (bs n 0 n tds).q) = ((bsFull 0 n).p, (bsFull 0 n).q) := by
  obtain ⟨hp, hq⟩ := bs_pq n 0 n tds (by omega) (le_refl n)
  rw [hp, hq, bsFull_eq_direct 0 n (by omega)]

/-- Witness for C5 at `n = 4`. -/
theorem claim5_pruning_noop_witness :
    1 ≤ 4 ∧ ((bs 4 0 4 2).p, (bs 4 0 4 2).q) = ((bsFull 0 4).p, (bsFull 0 4).q) :=
  ⟨by decide, claim5_pruning_noop 4 2 (by decide)⟩

/-- Claim C6, counterexample to the `floor` reading: at task budget
`n = -3` the code's left-child budget is the C truncating division
`-3/2 = -1`, not `⌊-3/2⌋ = -2`. -/
theorem claim6_floor_counterexample :
    tdsLeft (-3) ≠ Int.fdiv (-3) 2 ∧ tdsLeft (-3) = -1 ∧ Int.fdiv (-3) 2 = -2 := by
  decide

/-- Claim C6 (amended): at every split of a range of width `> 2` with
budget `n`, the children receive `n/2` rounded toward zero (which is
`⌊n/2⌋` whenever `n ≥ 0`) and `n` minus that; the children run in the
2-way parallel section exactly when the width is at least the 1000-term
threshold and the budget is at least 2, and the combine products use the
3-way section exactly when the width meets the threshold and the budget
is at least 3; otherwise everything runs serially, left before right. -/
theorem claim6_fork_structure (nt a b : Nat) (tds : Int) (h : 2 < b - a) :
    bs nt a b tds =
        bsCombine nt (b - a) b tds
          (bs nt a (bsMid a b) (tdsLeft tds)) (bs nt (bsMid a b) b (tdsRight tds)) ∧
      tdsLeft tds = Int.tdiv tds 2 ∧
      tdsRight tds = tds - Int.tdiv tds 2 ∧
      (0 ≤ tds → tdsLeft tds = Int.fdiv tds 2) ∧
      (forkPar (b - a) tds = true ↔ 1000 ≤ b - a ∧ 2 ≤ tds) ∧
      (mulPar (b - a) tds = true ↔ 1000 ≤ b - a ∧ 3 ≤ tds) := by
  obtain ⟨hm1, hm2, hm3, hm4⟩ := bsMid_bounds a b h
  refine ⟨?_, rfl, rfl, ?_, ?_, ?_⟩
  · show bsAux nt (b - a) a b tds = _
    rw [bsAux_wide nt (b - a) a b tds (by omega) h,
      bsAux_fuel nt (b - a - 1) a (bsMid a b) (tdsLeft tds) (by omega),
      bsAux_fuel nt (b - a - 1) (bsMid a b) b (tdsRight tds) (by omega)]
  · intro h0
    show Int.tdiv tds 2 = _
    rw [tdiv_two_eq, if_pos h0, Int.fdiv_eq_ediv _ (by norm_num)]
  · simp only [forkPar, Bool.not_eq_true', Bool.or_eq_false_iff,
      decide_eq_false_iff_not, not_lt]
  · simp only [mulPar, Bool.not_eq_true', Bool.or_eq_false_iff,
      decide_eq_false_iff_not, not_lt]

/-- Witness for the amended C6 at `nt = 4`, `[0, 4)`, budget 1. -/
theorem claim6_fork_structure_witness :
    2 < 4 - 0 ∧
      (bs 4 0 4 1 =
          bsCombine 4 (4 - 0) 4 1
            (bs 4 0 (bsMid 0 4) (tdsLeft 1)) (bs 4 (bsMid 0 4) 4 (tdsRight 1)) ∧
        tdsLeft 1 = Int.tdiv 1 2 ∧
        tdsRight 1 = 1 - Int.tdiv 1 2 ∧
        (0 ≤ (1 : Int) → tdsLeft 1 = Int.fdiv 1 2) ∧
        (forkPar (4 - 0) 1 = true ↔ 1000 ≤ 4 - 0 ∧ 2 ≤ (1 : Int)) ∧
        (mulPar (4 - 0) 1 = true ↔ 1000 ≤ 4 - 0 ∧ 3 ≤ (1 : Int))) :=
  ⟨by decide, claim6_fork_structure 4 0 4 1 (by decide)⟩

/-- Claim C7: the manually unrolled width-2 path produces exactly the
triple obtained by evaluating `[b-2, b-1)` and `[b-1, b)` as width-1
ranges and merging them with the case-3 combine rule. -/
theorem claim7_width2_equiv (nt : Nat) (tds tds1 tds2 : Int) (b : Nat) (h : 2 ≤ b) :
    bs nt (b - 2) b tds =
      combineCase3 nt b (bs nt (b - 2) (b - 1) tds1) (bs nt (b - 1) b tds2) := by
  have e1 : bs nt (b - 2) (b - 1) tds1 = term (b - 1) := by
    unfold bs
    exact bsAux_width1 nt ((b - 1) - (b - 2)) (b - 2) (b - 1) tds1 (by omega) (by omega)
  have e2 : bs nt (b - 1) b tds2 = term b := by
    unfold bs
    exact bsAux_width1 nt (b - (b - 1)) (b - 1) b tds2 (by omega) (by omega)
  have e0 : bs nt (b - 2) b tds = bsCombine nt (b - (b - 2)) b tds (term (b - 1)) (term b) := by
    unfold bs
    exact bsAux_width2 nt (b - (b - 2)) (b - 2) b tds (by omega) (by omega)
  rw [e0, bsCombine_eq, e1, e2]

/-- Witness for C7 at `nt = 9`, `b = 5`. -/
theorem claim7_width2_equiv_witness :
    2 ≤ 5 ∧
      bs 9 (5 - 2) 5 0 =
        combineCase3 9 5 (bs 9 (5 - 2) (5 - 1) 1) (bs 9 (5 - 1) 5 2) :=
  ⟨by decide, claim7_width2_equiv 9 0 1 2 5 (by decide)⟩

/-- Claim C8: a budget below 2 (negative included) is treated exactly as
an exhausted budget: every fork decision is serial, the child budgets
stay below 2, and the result equals the budget-0 run — no error. -/
theorem claim8_negative_budget (nt a b : Nat) (tds : Int) (hab : a < b) (h : tds < 2) :
    (∀ w, forkPar w tds = false) ∧ (∀ w, mulPar w tds = false) ∧
      tdsLeft tds < 2 ∧ tdsRight tds < 2 ∧
      bs nt a b tds = bs nt a b 0 := by
  refine ⟨?_, ?_, ?_, ?_, bs_tds nt a b tds 0⟩
  · intro w
    simp [forkPar, h]
  · intro w
    have h3 : tds < 3 := by omega
    simp [mulPar, h3]
  · show Int.tdiv tds 2 < 2
    rw [tdiv_two_eq]
    split <;> omega
  · show tds - Int.tdiv tds 2 < 2
    rw [tdiv_two_eq]
    split <;> omega

/-- Witness for C8 at `nt = 5`, `[0, 5)`, budget `-7`. -/
theorem claim8_negative_budget_witness :
    (0 < 5 ∧ (-7 : Int) < 2) ∧
      ((∀ w, forkPar w (-7) = false) ∧ (∀ w, mulPar w (-7) = false) ∧
        tdsLeft (-7) < 2 ∧ tdsRight (-7) < 2 ∧
        bs 5 0 5 (-7) = bs 5 0 5 0) :=
  ⟨by decide, claim8_negative_budget 5 0 5 (-7) (by decide) (by decide)⟩

/-- Claim C9: `term_count = 0` short-circuits to `P = 1, Q = 0` without
consulting the recursive evaluator: the result is `(1, 0)` uniformly in
the evaluator argument. -/
theorem claim9_zero_shortcircuit :
    ∀ (ev : Nat → Nat → Nat → Int → Triple) (tds : Int),
      evaluate_termsWith ev 0 tds = (1, 0) ∧ evaluate_terms 0 tds = (1, 0) := by
  intro ev tds
  exact ⟨rfl, rfl⟩

/-- Claim C10: for width `> 2` the split point `a + ⌊(b-a)·0.5224⌋` is
strictly interior, so both children are non-empty and strictly narrower
— the recursion preserves `a < b` and terminates. -/
theorem claim10_split_interior (a b : Nat) (h : 2 < b - a) :
    a < bsMid a b ∧ bsMid a b < b ∧ bsMid a b - a < b - a ∧ b - bsMid a b < b - a :=
  bsMid_bounds a b h

/-- Witness for C10 at `[0, 10)`. -/
theorem claim10_split_interior_witness :
    2 < 10 - 0 ∧
      (0 < bsMid 0 10 ∧ bsMid 0 10 < 10 ∧
        bsMid 0 10 - 0 < 10 - 0 ∧ 10 - bsMid 0 10 < 10 - 0) :=
  ⟨by decide, claim10_split_interior 0 10 (by decide)⟩

end Chudnovsky
